import Mathlib

/-!
# Blare information tags (`security/blare/blare.h`)

A shallow embedding of the inline tag-set operations of `blare.h`:
`tags_count`, `initialize_tags`, `copy_tags` and `blare_stop_propagate`.

* `struct info_tags` is its array of `__u32` words; the number of words
  `BLARE_TAGS_NUMBER` (`CONFIG_SECURITY_BLARE_TAGS_SIZE`) is the parameter `N`.
* Every function takes the memory it is handed and gives back `none` when it
  would index a word outside that memory, and otherwise its return value
  together with the memory it leaves behind. The two arguments of `copy_tags`
  are distinct objects.
* The loop index `i` runs over `0 .. N`, within `int` for every `N` that is an
  `int` constant, and is a natural number; the `int` accumulator of
  `tags_count` can pass `INT_MAX` once `32 * N` does, and is an integer reduced
  to signed 32 bits after every addition.
* The `_logged` variants are the same functions carrying a ghost record of the
  run (loop bodies executed, word indices touched, sums formed); dropping the
  record gives back the function.
* `hweight32` comes from `linux/bitops.h`; `blare_is_traced` and
  `register_flow_file_to_mm` are declared in `blare.h` and defined in
  `securityfs.c` and `open_flows.c`. The three are modelled from their
  documented meaning.
-/

namespace Blare

/-- The structure `struct info_tags { __u32 tags[BLARE_TAGS_NUMBER]; }`: the stored words. -/
structure info_tags where
  tags : List Nat
deriving DecidableEq, Repr

/-- A well-formed `struct info_tags` for width `N`: exactly `N` words, each a `__u32`. -/
def info_tags.valid (N : Nat) (T : info_tags) : Prop :=
  T.tags.length = N ∧ ∀ w ∈ T.tags, w < 4294967296

instance (N : Nat) (T : info_tags) : Decidable (T.valid N) := by
  unfold info_tags.valid; exact inferInstance

/-- Membership of tag `i`, as the comment of `struct info_tags` gives it: "bit i
corresponds to tag i", that is bit `i % 32` of word `i / 32`. -/
def info_tags.has_tag (T : info_tags) (i : Nat) : Bool :=
  (T.tags.getD (i / 32) 0).testBit (i % 32)

/-- Number of tags among `0 .. 32 * n - 1` that are members of `T`. -/
def info_tags.card_upto (T : info_tags) (n : Nat) : Nat :=
  (List.range (32 * n)).countP T.has_tag

/-- Modelled from the spec: `hweight32` of `linux/bitops.h`, which is not part of this
repository: the population count of a 32-bit word ("popcount across all words"). -/
def hweight32 (w : Nat) : Nat :=
  (List.range 32).countP w.testBit

/-- Conversion of an integer to the C type `int` (signed, 32 bits, two's complement). -/
def wrap_int (z : Int) : Int :=
  (z + 2147483648) % 4294967296 - 2147483648

/-- The loop of `tags_count`: `for ( ; i<BLARE_TAGS_NUMBER ; i++) count += hweight32(tags->tags[i]);`
followed by `return count;`. -/
def tags_count_loop (N : Nat) (i : Nat) (count : Int) (tags : info_tags) :
    Option (Int × info_tags) :=
  if i < N then
    match tags.tags[i]? with
    | none => none
    | some w => tags_count_loop N (i + 1) (wrap_int (count + hweight32 w)) tags
  else
    some (count, tags)
termination_by N - i

/-- The function `tags_count`: `int count = 0; int i; for (i=0 ; ...)`. -/
def tags_count (N : Nat) (tags : info_tags) : Option (Int × info_tags) :=
  tags_count_loop N 0 0 tags

/-- The loop of `initialize_tags`: `for ( ; i<BLARE_TAGS_NUMBER ; i++) tags->tags[i] = 0;`. -/
def initialize_tags_loop (N : Nat) (i : Nat) (tags : info_tags) : Option info_tags :=
  if i < N then
    if i < tags.tags.length then
      initialize_tags_loop N (i + 1) ⟨tags.tags.set i 0⟩
    else none
  else
    some tags
termination_by N - i

/-- The function `initialize_tags`; it returns `void`, so the result is the memory alone. -/
def initialize_tags (N : Nat) (tags : info_tags) : Option info_tags :=
  initialize_tags_loop N 0 tags

/-- The loop of `copy_tags`: `for ( ; i<BLARE_TAGS_NUMBER ; i++) dest->tags[i] = src->tags[i];`.
The result is the pair (destination, source) as the loop leaves them. -/
def copy_tags_loop (N : Nat) (i : Nat) (dest src : info_tags) :
    Option (info_tags × info_tags) :=
  if i < N then
    match src.tags[i]? with
    | none => none
    | some w =>
      if i < dest.tags.length then
        copy_tags_loop N (i + 1) ⟨dest.tags.set i w⟩ src
      else none
  else
    some (dest, src)
termination_by N - i

/-- The function `copy_tags`. -/
def copy_tags (N : Nat) (dest src : info_tags) : Option (info_tags × info_tags) :=
  copy_tags_loop N 0 dest src

/-- The function `blare_stop_propagate`: `return (tags->tags[0] & 1);` converted to `bool`. -/
def blare_stop_propagate (tags : info_tags) : Option (Bool × info_tags) :=
  match tags.tags[0]? with
  | none => none
  | some w => some (decide (w &&& 1 ≠ 0), tags)

/-- Modelled from the spec: `blare_is_traced` (securityfs.c; the sources hold only its
declaration, `blare.h` line 134): "true iff the tag set is non-empty (count > 0)". -/
def blare_is_traced (N : Nat) (tags_added : info_tags) : Option (Bool × info_tags) :=
  match tags_count N tags_added with
  | none => none
  | some (count, mem) => some (decide (0 < count), mem)

/-- Modelled from the spec: what resolving the security context of a kernel object gives
(sections 4.2 and 7): the tag set of the context, or a failure (an allocation failure while the
context is materialized, or an invalid reference) with the negative status that reports it. -/
inductive context where
  | resolved (tags : info_tags)
  | failed (status : Int)
deriving DecidableEq, Repr

/-- Modelled from the spec: `register_flow_file_to_mm` (open_flows.c; the sources hold only its
declaration `int register_flow_file_to_mm(struct file *file, struct mm_struct *mm)`, `blare.h`
line 77), on the inode context of `file` and the address-space context of `mm`.
A context that fails to resolve aborts the flow with its negative status, "leaving prior state
unchanged". Otherwise the flow succeeds with status 0. A container whose stop bit is set takes
part in no propagation, "neither as source nor destination" (section 3; `blare.h` lines 145-149:
"no tags can be propagated to or from the info_tags structure"), so nothing moves when
`blare_stop_propagate` holds of the destination or of the source; else "destination tags ∪=
source tags", the union being the word-wise OR, computed in full before it is stored.
The result is the status and the two contexts the flow leaves behind. -/
def register_flow_file_to_mm (file mm : context) : Option (Int × context × context) :=
  match file, mm with
  | context.failed status, _ => some (status, file, mm)
  | context.resolved _, context.failed status => some (status, file, mm)
  | context.resolved inode, context.resolved msec =>
    match blare_stop_propagate msec with
    | none => none
    | some (true, msec) => some (0, context.resolved inode, context.resolved msec)
    | some (false, msec) =>
      match blare_stop_propagate inode with
      | none => none
      | some (true, inode) => some (0, context.resolved inode, context.resolved msec)
      | some (false, inode) =>
        some (0, context.resolved inode,
          context.resolved ⟨List.zipWith (· ||| ·) msec.tags inode.tags⟩)

/-- Ghost record of one run: the number of loop bodies executed, the word indices read or
written, in order, and the values of `count + hweight32(...)` before their conversion to
`int`. -/
structure run_log where
  iterations : Nat
  indices : List Nat
  sums : List Int
deriving DecidableEq, Repr

/-- The loop of `tags_count`, with the ghost record of the run threaded through it. -/
def tags_count_loop_logged (N : Nat) (i : Nat) (count : Int) (tags : info_tags)
    (log : run_log) : Option (Int × info_tags × run_log) :=
  if i < N then
    match tags.tags[i]? with
    | none => none
    | some w =>
      tags_count_loop_logged N (i + 1) (wrap_int (count + hweight32 w)) tags
        ⟨log.iterations + 1, log.indices ++ [i], log.sums ++ [count + hweight32 w]⟩
  else
    some (count, tags, log)
termination_by N - i

/-- The function `tags_count`, with the ghost record of its run. -/
def tags_count_logged (N : Nat) (tags : info_tags) : Option (Int × info_tags × run_log) :=
  tags_count_loop_logged N 0 0 tags ⟨0, [], []⟩

/-- The loop of `initialize_tags`, with the ghost record of the run threaded through it. -/
def initialize_tags_loop_logged (N : Nat) (i : Nat) (tags : info_tags) (log : run_log) :
    Option (info_tags × run_log) :=
  if i < N then
    if i < tags.tags.length then
      initialize_tags_loop_logged N (i + 1) ⟨tags.tags.set i 0⟩
        ⟨log.iterations + 1, log.indices ++ [i], log.sums⟩
    else none
  else
    some (tags, log)
termination_by N - i

/-- The function `initialize_tags`, with the ghost record of its run. -/
def initialize_tags_logged (N : Nat) (tags : info_tags) : Option (info_tags × run_log) :=
  initialize_tags_loop_logged N 0 tags ⟨0, [], []⟩

/-- The loop of `copy_tags`, with the ghost record of the run threaded through it: every
body reads word `i` of the source and writes word `i` of the destination. -/
def copy_tags_loop_logged (N : Nat) (i : Nat) (dest src : info_tags) (log : run_log) :
    Option (info_tags × info_tags × run_log) :=
  if i < N then
    match src.tags[i]? with
    | none => none
    | some w =>
      if i < dest.tags.length then
        copy_tags_loop_logged N (i + 1) ⟨dest.tags.set i w⟩ src
          ⟨log.iterations + 1, log.indices ++ [i, i], log.sums⟩
      else none
  else
    some (dest, src, log)
termination_by N - i

/-- The function `copy_tags`, with the ghost record of its run. -/
def copy_tags_logged (N : Nat) (dest src : info_tags) :
    Option (info_tags × info_tags × run_log) :=
  copy_tags_loop_logged N 0 dest src ⟨0, [], []⟩

/-- The function `blare_stop_propagate`, with the ghost record of its run: no loop, one read
of word 0. -/
def blare_stop_propagate_logged (tags : info_tags) : Option (Bool × info_tags × run_log) :=
  match tags.tags[0]? with
  | none => none
  | some w => some (decide (w &&& 1 ≠ 0), tags, ⟨0, [0], []⟩)

/-! ## Arithmetic of the `int` accumulator -/

theorem wrap_int_add_left (a b : Int) : wrap_int (wrap_int a + b) = wrap_int (a + b) := by
  unfold wrap_int; omega

theorem wrap_int_of_range (z : Int) (h0 : -2147483648 ≤ z) (h1 : z ≤ 2147483647) :
    wrap_int z = z := by
  unfold wrap_int; omega

/-! ## Tags and words -/

theorem has_tag_word (T : info_tags) (n b : Nat) (hb : b < 32) :
    T.has_tag (32 * n + b) = (T.tags.getD n 0).testBit b := by
  unfold info_tags.has_tag
  have h1 : (32 * n + b) / 32 = n := by omega
  have h2 : (32 * n + b) % 32 = b := by omega
  rw [h1, h2]

theorem card_upto_succ (T : info_tags) (n : Nat) :
    T.card_upto (n + 1) = T.card_upto n + hweight32 (T.tags.getD n 0) := by
  unfold info_tags.card_upto hweight32
  have h : 32 * (n + 1) = 32 * n + 32 := by ring
  rw [h, List.range_add, List.countP_append, List.countP_map]
  congr 1
  apply List.countP_congr
  intro b hb
  simp only [List.mem_range] at hb
  simp [Function.comp, has_tag_word T n b hb]

theorem card_upto_le (T : info_tags) (n : Nat) : T.card_upto n ≤ 32 * n := by
  unfold info_tags.card_upto
  exact (List.countP_le_length _).trans (by simp)

theorem card_upto_eq_sum_take (T : info_tags) :
    ∀ n : Nat, n ≤ T.tags.length → T.card_upto n = ((T.tags.take n).map hweight32).sum := by
  intro n
  induction n with
  | zero => intro _; simp [info_tags.card_upto]
  | succ n ih =>
    intro hn
    have hl : n < T.tags.length := by omega
    rw [card_upto_succ, ih (by omega), List.take_succ, List.getElem?_eq_getElem hl,
      List.getD_eq_getElem _ _ hl]
    simp only [Option.toList, List.map_append, List.sum_append, List.map, List.sum_cons,
      List.sum_nil, add_zero]

theorem card_upto_eq_sum (N : Nat) (T : info_tags) (hlen : T.tags.length = N) :
    T.card_upto N = (T.tags.map hweight32).sum := by
  rw [card_upto_eq_sum_take T N (by omega), ← hlen, List.take_length]

/-! ## The loops -/

theorem tags_count_loop_spec (N : Nat) (tags : info_tags) (hlen : N ≤ tags.tags.length) :
    ∀ (k i : Nat) (count : Int), N - i = k → i ≤ N →
      count = wrap_int (tags.card_upto i) →
      tags_count_loop N i count tags = some (wrap_int (tags.card_upto N), tags) := by
  intro k
  induction k with
  | zero =>
    intro i count hk hi hc
    have : i = N := by omega
    subst this
    rw [tags_count_loop]; simp [hc]
  | succ k ih =>
    intro i count hk hi hc
    have hlt : i < N := by omega
    have hl : i < tags.tags.length := by omega
    rw [tags_count_loop]
    simp only [hlt, if_true, List.getElem?_eq_getElem hl]
    apply ih (i + 1) _ (by omega) (by omega)
    rw [hc, wrap_int_add_left, card_upto_succ, List.getD_eq_getElem _ _ hl]
    push_cast; rfl

theorem tags_count_spec (N : Nat) (tags : info_tags) (hlen : N ≤ tags.tags.length) :
    tags_count N tags = some (wrap_int (tags.card_upto N), tags) := by
  unfold tags_count
  exact tags_count_loop_spec N tags hlen N 0 0 (by omega) (by omega)
    (by simp [info_tags.card_upto, wrap_int])

theorem tags_count_exact (N : Nat) (tags : info_tags) (hlen : N ≤ tags.tags.length)
    (hN : 32 * N ≤ 2147483647) :
    tags_count N tags = some ((tags.card_upto N : Int), tags) := by
  rw [tags_count_spec N tags hlen, wrap_int_of_range]
  · omega
  · have := card_upto_le tags N
    omega

theorem initialize_tags_loop_spec (N : Nat) :
    ∀ (k i : Nat) (tags : info_tags), N - i = k → i ≤ N → N ≤ tags.tags.length →
      ∃ out : info_tags, initialize_tags_loop N i tags = some out ∧
        out.tags.length = tags.tags.length ∧
        ∀ j : Nat, out.tags[j]? = if i ≤ j ∧ j < N then some 0 else tags.tags[j]? := by
  intro k
  induction k with
  | zero =>
    intro i tags hk hi hlen
    refine ⟨tags, ?_, rfl, ?_⟩
    · rw [initialize_tags_loop]; simp; omega
    · intro j
      have : ¬ (i ≤ j ∧ j < N) := by omega
      simp [this]
  | succ k ih =>
    intro i tags hk hi hlen
    have hlt : i < N := by omega
    have hl : i < tags.tags.length := by omega
    obtain ⟨out, h1, h2, h3⟩ := ih (i + 1) ⟨tags.tags.set i 0⟩ (by omega) (by omega)
      (by simpa using hlen)
    refine ⟨out, ?_, ?_, ?_⟩
    · rw [initialize_tags_loop]; simp only [hlt, hl, if_true]; exact h1
    · simpa using h2
    · intro j
      rw [h3 j]
      simp only [List.getElem?_set]
      by_cases hj : i = j
      · subst hj; simp [hlt, hl]
      · by_cases hj2 : i + 1 ≤ j ∧ j < N
        · have : i ≤ j ∧ j < N := by omega
          simp [hj2, this]
        · have : ¬ (i ≤ j ∧ j < N) := by omega
          simp [hj2, this, hj]

theorem copy_tags_loop_spec (N : Nat) (src : info_tags) (hsrc : N ≤ src.tags.length) :
    ∀ (k i : Nat) (dest : info_tags), N - i = k → i ≤ N → N ≤ dest.tags.length →
      ∃ out : info_tags, copy_tags_loop N i dest src = some (out, src) ∧
        out.tags.length = dest.tags.length ∧
        ∀ j : Nat, out.tags[j]? = if i ≤ j ∧ j < N then src.tags[j]? else dest.tags[j]? := by
  intro k
  induction k with
  | zero =>
    intro i dest hk hi hlen
    refine ⟨dest, ?_, rfl, ?_⟩
    · rw [copy_tags_loop]; simp; omega
    · intro j
      have : ¬ (i ≤ j ∧ j < N) := by omega
      simp [this]
  | succ k ih =>
    intro i dest hk hi hlen
    have hlt : i < N := by omega
    have hl : i < dest.tags.length := by omega
    have hs : i < src.tags.length := by omega
    obtain ⟨out, h1, h2, h3⟩ := ih (i + 1) ⟨dest.tags.set i src.tags[i]⟩ (by omega) (by omega)
      (by simpa using hlen)
    refine ⟨out, ?_, ?_, ?_⟩
    · rw [copy_tags_loop]
      simp only [hlt, hl, if_true, List.getElem?_eq_getElem hs]
      exact h1
    · simpa using h2
    · intro j
      rw [h3 j]
      simp only [List.getElem?_set]
      by_cases hj : i = j
      · subst hj; simp [hlt, hl, List.getElem?_eq_getElem hs]
      · by_cases hj2 : i + 1 ≤ j ∧ j < N
        · have : i ≤ j ∧ j < N := by omega
          simp [hj2, this]
        · have : ¬ (i ≤ j ∧ j < N) := by omega
          simp [hj2, this, hj]

theorem initialize_tags_spec (N : Nat) (T : info_tags) (hlen : T.tags.length = N) :
    initialize_tags N T = some ⟨List.replicate N 0⟩ := by
  obtain ⟨out, h1, h2, h3⟩ := initialize_tags_loop_spec N N 0 T (by omega) (by omega) (by omega)
  unfold initialize_tags
  rw [h1]
  congr 1
  cases out with
  | mk l =>
    congr 1
    apply List.ext_getElem?
    intro j
    rw [h3 j, List.getElem?_replicate]
    by_cases hj : j < N
    · simp [hj]
    · have : T.tags.length ≤ j := by omega
      simp [hj, List.getElem?_eq_none this]

theorem copy_tags_spec (N : Nat) (dest src : info_tags) (hd : dest.tags.length = N)
    (hs : src.tags.length = N) : copy_tags N dest src = some (src, src) := by
  obtain ⟨out, h1, h2, h3⟩ :=
    copy_tags_loop_spec N src (by omega) N 0 dest (by omega) (by omega) (by omega)
  unfold copy_tags
  rw [h1]
  congr 2
  cases out with
  | mk l =>
    cases src with
    | mk m =>
      congr 1
      apply List.ext_getElem?
      intro j
      rw [h3 j]
      by_cases hj : j < N
      · simp [hj]
      · have h4 : dest.tags.length ≤ j := by omega
        have h5 : m.length ≤ j := by
          have : m.length = N := hs
          omega
        simp [hj, List.getElem?_eq_none h4, List.getElem?_eq_none h5]

theorem blare_stop_propagate_spec (T : info_tags) (hlen : 0 < T.tags.length) :
    blare_stop_propagate T = some (T.has_tag 0, T) := by
  unfold blare_stop_propagate info_tags.has_tag
  rw [List.getElem?_eq_getElem hlen]
  simp only [Nat.zero_div, Nat.zero_mod, List.getD_eq_getElem _ _ hlen, Nat.testBit_zero,
    Nat.and_one_is_mod]
  congr 2
  have : T.tags[0] % 2 = 0 ∨ T.tags[0] % 2 = 1 := by omega
  rcases this with h | h <;> simp [h]

theorem hweight32_zero : hweight32 0 = 0 := by
  simp [hweight32]

theorem card_upto_replicate_zero (N : Nat) :
    (⟨List.replicate N 0⟩ : info_tags).card_upto N = 0 := by
  rw [card_upto_eq_sum N _ (by simp)]
  simp [hweight32_zero]

/-! ## Setting the stop bit -/

theorem testBit_one_pos (b : Nat) (hb : 1 ≤ b) : Nat.testBit 1 b = false := by
  cases h : Nat.testBit 1 b with
  | false => rfl
  | true =>
    have := (@Nat.testBit_one_eq_true_iff_self_eq_zero b).1 h
    omega

theorem has_tag_set_stop_bit (T : info_tags) (i : Nat) (hi : 1 ≤ i) :
    (⟨T.tags.set 0 (T.tags.getD 0 0 ||| 1)⟩ : info_tags).has_tag i = T.has_tag i := by
  cases T with
  | mk l =>
    cases l with
    | nil => rfl
    | cons w0 rest =>
      unfold info_tags.has_tag
      simp only [List.set_cons_zero, List.getD_cons_zero]
      cases hk : i / 32 with
      | zero =>
        have hpos : 1 ≤ i % 32 := by omega
        simp [Nat.testBit_lor, testBit_one_pos _ hpos]
      | succ k => simp

theorem has_tag_zero_set_stop_bit (T : info_tags) (hl : 0 < T.tags.length) :
    (⟨T.tags.set 0 (T.tags.getD 0 0 ||| 1)⟩ : info_tags).has_tag 0 = true := by
  cases T with
  | mk l =>
    cases l with
    | nil => simp at hl
    | cons w0 rest => simp [info_tags.has_tag, Nat.testBit_lor]

theorem card_upto_split (T : info_tags) (N : Nat) (hN : 1 ≤ N) :
    T.card_upto N =
      (List.range' 1 (32 * N - 1)).countP T.has_tag + (if T.has_tag 0 then 1 else 0) := by
  unfold info_tags.card_upto
  have h : 32 * N = (32 * N - 1) + 1 := by omega
  rw [List.range_eq_range', h, List.range'_succ, List.countP_cons]
  simp

theorem valid_set_stop_bit (N : Nat) (T : info_tags) (hT : T.valid N) :
    (⟨T.tags.set 0 (T.tags.getD 0 0 ||| 1)⟩ : info_tags).valid N := by
  refine ⟨by simpa using hT.1, ?_⟩
  intro w hw
  rcases List.mem_or_eq_of_mem_set hw with h | h
  · exact hT.2 w h
  · subst h
    have h0 : T.tags.getD 0 0 < 2 ^ 32 := by
      by_cases hl : 0 < T.tags.length
      · rw [List.getD_eq_getElem _ _ hl]
        exact hT.2 _ (List.getElem_mem hl)
      · have : T.tags = [] := by
          cases hT' : T.tags with
          | nil => rfl
          | cons a l => rw [hT'] at hl; simp at hl
        simp [this]
    have := Nat.or_lt_two_pow h0 (by norm_num : 1 < 2 ^ 32)
    simpa using this

/-! ## Word-wise OR of two tag sets -/

theorem has_tag_union (A B : info_tags) (hlen : A.tags.length = B.tags.length) (i : Nat) :
    (⟨List.zipWith (· ||| ·) A.tags B.tags⟩ : info_tags).has_tag i =
      (A.has_tag i || B.has_tag i) := by
  unfold info_tags.has_tag
  simp only [List.getD_eq_getElem?_getD, List.getElem?_zipWith]
  by_cases h : i / 32 < A.tags.length
  · have h' : i / 32 < B.tags.length := by omega
    simp [List.getElem?_eq_getElem h, List.getElem?_eq_getElem h', Nat.testBit_lor]
  · have h' : ¬ i / 32 < B.tags.length := by omega
    simp [List.getElem?_eq_none (Nat.le_of_not_lt h), List.getElem?_eq_none (Nat.le_of_not_lt h')]

theorem valid_union (N : Nat) (A B : info_tags) (hA : A.valid N) (hB : B.valid N) :
    (⟨List.zipWith (· ||| ·) A.tags B.tags⟩ : info_tags).valid N := by
  refine ⟨by simp [hA.1, hB.1], ?_⟩
  intro w hw
  obtain ⟨n, hn, rfl⟩ := List.getElem_of_mem hw
  rw [List.getElem_zipWith]
  have hna : n < A.tags.length := by simp at hn; omega
  have hnb : n < B.tags.length := by simp at hn; omega
  have ha : A.tags[n] < 2 ^ 32 := hA.2 _ (List.getElem_mem hna)
  have hb : B.tags[n] < 2 ^ 32 := hB.2 _ (List.getElem_mem hnb)
  have := Nat.or_lt_two_pow ha hb
  simpa using this

theorem card_upto_mono (A U : info_tags) (n : Nat)
    (h : ∀ i : Nat, A.has_tag i = true → U.has_tag i = true) :
    A.card_upto n ≤ U.card_upto n := by
  unfold info_tags.card_upto
  exact List.countP_mono_left (fun i _ hi => h i hi)

theorem zipWith_lor_self (l : List Nat) : List.zipWith (· ||| ·) l l = l := by
  induction l with
  | nil => rfl
  | cons a l ih => simp [ih]

theorem zipWith_lor_comm (l m : List Nat) :
    List.zipWith (· ||| ·) l m = List.zipWith (· ||| ·) m l := by
  rw [List.zipWith_comm]
  congr 1
  funext a b
  exact Nat.lor_comm b a

/-! ## Empty tag sets -/

theorem hweight32_eq_zero (w : Nat) (hw : w < 4294967296) : hweight32 w = 0 ↔ w = 0 := by
  constructor
  · intro h
    unfold hweight32 at h
    rw [List.countP_eq_zero] at h
    apply Nat.zero_of_testBit_eq_false
    intro b
    by_cases hb : b < 32
    · simpa using h b (List.mem_range.2 hb)
    · apply Nat.testBit_lt_two_pow
      calc w < 2 ^ 32 := by simpa using hw
        _ ≤ 2 ^ b := Nat.pow_le_pow_right (by decide) (by omega)
  · rintro rfl
    exact hweight32_zero

theorem card_upto_eq_zero (N : Nat) (T : info_tags) (hT : T.valid N) :
    T.card_upto N = 0 ↔ ∀ w ∈ T.tags, w = 0 := by
  rw [card_upto_eq_sum N T hT.1, List.sum_eq_zero_iff]
  constructor
  · intro h w hw
    exact (hweight32_eq_zero w (hT.2 w hw)).1 (h _ (List.mem_map_of_mem _ hw))
  · intro h x hx
    obtain ⟨w, hw, rfl⟩ := List.mem_map.1 hx
    rw [h w hw]
    exact hweight32_zero

/-! ## The functions on concrete memory -/

theorem tags_count_two_words :
    tags_count 2 ⟨[5, 4294967295]⟩ = some (34, ⟨[5, 4294967295]⟩) := by
  simp [tags_count, tags_count_loop, hweight32, wrap_int]
  decide

theorem tags_count_short_memory : tags_count 3 ⟨[5, 4294967295]⟩ = none := by
  simp [tags_count, tags_count_loop, hweight32, wrap_int]

theorem initialize_tags_two_words : initialize_tags 2 ⟨[5, 8]⟩ = some ⟨[0, 0]⟩ := by
  simp [initialize_tags, initialize_tags_loop]

theorem initialize_tags_long_memory : initialize_tags 2 ⟨[5, 8, 9]⟩ = some ⟨[0, 0, 9]⟩ := by
  simp [initialize_tags, initialize_tags_loop]

theorem copy_tags_two_words :
    copy_tags 2 ⟨[5, 8]⟩ ⟨[1, 2]⟩ = some (⟨[1, 2]⟩, ⟨[1, 2]⟩) := by
  simp [copy_tags, copy_tags_loop]

theorem blare_stop_propagate_set : blare_stop_propagate ⟨[5, 8]⟩ = some (true, ⟨[5, 8]⟩) := by
  simp [blare_stop_propagate]

theorem blare_stop_propagate_clear :
    blare_stop_propagate ⟨[4, 9]⟩ = some (false, ⟨[4, 9]⟩) := by
  simp [blare_stop_propagate]

theorem blare_stop_propagate_no_word : blare_stop_propagate ⟨[]⟩ = none := by
  simp [blare_stop_propagate]

/-! ## Runs with their ghost record -/

theorem tags_count_loop_logged_erase (N : Nat) (tags : info_tags) :
    ∀ (k i : Nat) (count : Int) (log : run_log), N - i = k →
      (tags_count_loop_logged N i count tags log).map (fun r => (r.1, r.2.1)) =
        tags_count_loop N i count tags := by
  intro k
  induction k with
  | zero =>
    intro i count log hk
    have h : ¬ i < N := by omega
    rw [tags_count_loop_logged, tags_count_loop]
    simp [h]
  | succ k ih =>
    intro i count log hk
    have h : i < N := by omega
    rw [tags_count_loop_logged, tags_count_loop]
    simp only [h, if_true]
    cases hw : tags.tags[i]? with
    | none => rfl
    | some w => exact ih (i + 1) _ _ (by omega)

theorem initialize_tags_loop_logged_erase (N : Nat) :
    ∀ (k i : Nat) (tags : info_tags) (log : run_log), N - i = k →
      (initialize_tags_loop_logged N i tags log).map Prod.fst =
        initialize_tags_loop N i tags := by
  intro k
  induction k with
  | zero =>
    intro i tags log hk
    have h : ¬ i < N := by omega
    rw [initialize_tags_loop_logged, initialize_tags_loop]
    simp [h]
  | succ k ih =>
    intro i tags log hk
    have h : i < N := by omega
    rw [initialize_tags_loop_logged, initialize_tags_loop]
    simp only [h, if_true]
    by_cases hl : i < tags.tags.length
    · simp only [hl, if_true]
      exact ih (i + 1) _ _ (by omega)
    · simp [hl]

theorem copy_tags_loop_logged_erase (N : Nat) (src : info_tags) :
    ∀ (k i : Nat) (dest : info_tags) (log : run_log), N - i = k →
      (copy_tags_loop_logged N i dest src log).map (fun r => (r.1, r.2.1)) =
        copy_tags_loop N i dest src := by
  intro k
  induction k with
  | zero =>
    intro i dest log hk
    have h : ¬ i < N := by omega
    rw [copy_tags_loop_logged, copy_tags_loop]
    simp [h]
  | succ k ih =>
    intro i dest log hk
    have h : i < N := by omega
    rw [copy_tags_loop_logged, copy_tags_loop]
    simp only [h, if_true]
    cases hw : src.tags[i]? with
    | none => rfl
    | some w =>
      by_cases hl : i < dest.tags.length
      · simp only [hl, if_true]
        exact ih (i + 1) _ _ (by omega)
      · simp [hl]

theorem blare_stop_propagate_logged_erase (tags : info_tags) :
    (blare_stop_propagate_logged tags).map (fun r => (r.1, r.2.1)) =
      blare_stop_propagate tags := by
  unfold blare_stop_propagate_logged blare_stop_propagate
  cases tags.tags[0]? <;> rfl

theorem tags_count_loop_logged_spec (N : Nat) (tags : info_tags)
    (hlen : N ≤ tags.tags.length) :
    ∀ (k i : Nat) (count : Int) (log : run_log), N - i = k → i ≤ N →
      count = wrap_int (tags.card_upto i) →
      tags_count_loop_logged N i count tags log =
        some (wrap_int (tags.card_upto N), tags,
          ⟨log.iterations + k, log.indices ++ List.range' i k,
            log.sums ++ (List.range' i k).map
              (fun j => wrap_int (tags.card_upto j) + hweight32 (tags.tags.getD j 0))⟩) := by
  intro k
  induction k with
  | zero =>
    intro i count log hk hi hc
    have : i = N := by omega
    subst this
    rw [tags_count_loop_logged]; simp [hc]
  | succ k ih =>
    intro i count log hk hi hc
    have hlt : i < N := by omega
    have hl : i < tags.tags.length := by omega
    rw [tags_count_loop_logged]
    simp only [hlt, if_true, List.getElem?_eq_getElem hl]
    rw [ih (i + 1) _ _ (by omega) (by omega)
      (by rw [hc, wrap_int_add_left, card_upto_succ, List.getD_eq_getElem _ _ hl]
          push_cast; rfl)]
    simp only [List.range'_succ, List.map_cons, List.append_assoc, List.singleton_append,
      List.getD_eq_getElem _ _ hl, hc]
    rw [Nat.add_assoc log.iterations 1 k, Nat.add_comm 1 k]

theorem tags_count_logged_spec (N : Nat) (tags : info_tags) (hlen : N ≤ tags.tags.length) :
    tags_count_logged N tags =
      some (wrap_int (tags.card_upto N), tags,
        ⟨N, List.range N, (List.range N).map
          (fun j => wrap_int (tags.card_upto j) + hweight32 (tags.tags.getD j 0))⟩) := by
  unfold tags_count_logged
  rw [tags_count_loop_logged_spec N tags hlen N 0 0 ⟨0, [], []⟩ (by omega) (by omega)
    (by simp [info_tags.card_upto, wrap_int])]
  simp [List.range_eq_range']

theorem initialize_tags_loop_logged_spec (N : Nat) :
    ∀ (k i : Nat) (tags : info_tags) (log : run_log), N - i = k → i ≤ N →
      N ≤ tags.tags.length →
      ∃ out : info_tags, initialize_tags_loop_logged N i tags log =
        some (out, ⟨log.iterations + k, log.indices ++ List.range' i k, log.sums⟩) := by
  intro k
  induction k with
  | zero =>
    intro i tags log hk hi hlen
    have h : ¬ i < N := by omega
    refine ⟨tags, ?_⟩
    rw [initialize_tags_loop_logged]; simp [h]
  | succ k ih =>
    intro i tags log hk hi hlen
    have hlt : i < N := by omega
    have hl : i < tags.tags.length := by omega
    obtain ⟨out, h1⟩ := ih (i + 1) ⟨tags.tags.set i 0⟩
      ⟨log.iterations + 1, log.indices ++ [i], log.sums⟩ (by omega) (by omega)
      (by simpa using hlen)
    refine ⟨out, ?_⟩
    rw [initialize_tags_loop_logged]
    simp only [hlt, hl, if_true]
    rw [h1]
    simp only [List.range'_succ, List.append_assoc, List.singleton_append]
    rw [Nat.add_assoc log.iterations 1 k, Nat.add_comm 1 k]

theorem copy_tags_loop_logged_spec (N : Nat) (src : info_tags) (hsrc : N ≤ src.tags.length) :
    ∀ (k i : Nat) (dest : info_tags) (log : run_log), N - i = k → i ≤ N →
      N ≤ dest.tags.length →
      ∃ (out : info_tags) (idx : List Nat),
        copy_tags_loop_logged N i dest src log =
          some (out, src, ⟨log.iterations + k, log.indices ++ idx, log.sums⟩) ∧
        idx.length = 2 * k ∧ ∀ j ∈ idx, i ≤ j ∧ j < N := by
  intro k
  induction k with
  | zero =>
    intro i dest log hk hi hlen
    have h : ¬ i < N := by omega
    refine ⟨dest, [], ?_, rfl, by simp⟩
    rw [copy_tags_loop_logged]; simp [h]
  | succ k ih =>
    intro i dest log hk hi hlen
    have hlt : i < N := by omega
    have hl : i < dest.tags.length := by omega
    have hs : i < src.tags.length := by omega
    obtain ⟨out, idx, h1, h2, h3⟩ := ih (i + 1) ⟨dest.tags.set i src.tags[i]⟩
      ⟨log.iterations + 1, log.indices ++ [i, i], log.sums⟩ (by omega) (by omega)
      (by simpa using hlen)
    refine ⟨out, i :: i :: idx, ?_, by simp [h2]; omega, ?_⟩
    · rw [copy_tags_loop_logged]
      simp only [hlt, hl, if_true, List.getElem?_eq_getElem hs]
      rw [h1]
      simp only [List.append_assoc, List.cons_append, List.nil_append]
      rw [Nat.add_assoc log.iterations 1 k, Nat.add_comm 1 k]
    · intro j hj
      simp only [List.mem_cons] at hj
      rcases hj with rfl | rfl | hj
      · omega
      · omega
      · have := h3 j hj
        omega

/-! ## Bounds of the count -/

theorem hweight32_le (w : Nat) : hweight32 w ≤ 32 := by
  unfold hweight32
  exact (List.countP_le_length _).trans (by simp)

theorem hweight32_one : hweight32 1 = 1 := by
  decide

theorem hweight32_full : hweight32 4294967295 = 32 := by
  decide

theorem hweight32_eq_32 (w : Nat) (hw : w < 4294967296) :
    hweight32 w = 32 ↔ w = 4294967295 := by
  constructor
  · intro h
    have h32 : hweight32 w = (List.range 32).length := by simpa using h
    unfold hweight32 at h32
    rw [List.countP_eq_length] at h32
    apply Nat.eq_of_testBit_eq
    intro b
    have hfull : (4294967295 : Nat) = 2 ^ 32 - 1 := by norm_num
    rw [hfull, Nat.testBit_two_pow_sub_one]
    by_cases hb : b < 32
    · simpa [hb] using h32 b (List.mem_range.2 hb)
    · simp only [hb, decide_False]
      apply Nat.testBit_lt_two_pow
      calc w < 2 ^ 32 := by simpa using hw
        _ ≤ 2 ^ b := Nat.pow_le_pow_right (by decide) (by omega)
  · rintro rfl
    exact hweight32_full

theorem sum_map_eq_full (l : List Nat) :
    (l.map hweight32).sum ≤ 32 * l.length ∧
    ((l.map hweight32).sum = 32 * l.length ↔ ∀ w ∈ l, hweight32 w = 32) := by
  induction l with
  | nil => simp
  | cons a l ih =>
    have ha := hweight32_le a
    simp only [List.map_cons, List.sum_cons, List.length_cons, List.mem_cons, forall_eq_or_imp]
    refine ⟨by omega, ?_⟩
    constructor
    · intro h
      have h1 : hweight32 a = 32 := by omega
      exact ⟨h1, ih.2.1 (by omega)⟩
    · rintro ⟨h1, h2⟩
      have := ih.2.2 h2
      omega

theorem card_upto_eq_full (N : Nat) (T : info_tags) (hT : T.valid N) :
    T.card_upto N = 32 * N ↔ ∀ w ∈ T.tags, w = 4294967295 := by
  rw [card_upto_eq_sum N T hT.1]
  have h := (sum_map_eq_full T.tags).2
  rw [hT.1] at h
  rw [h]
  constructor
  · intro hall w hw
    exact (hweight32_eq_32 w (hT.2 w hw)).1 (hall w hw)
  · intro hall w hw
    exact (hweight32_eq_32 w (hT.2 w hw)).2 (hall w hw)

theorem running_sum_in_range (N : Nat) (T : info_tags) (hfit : 32 * N ≤ 2147483647)
    (j : Nat) (hj : j < N) :
    wrap_int (T.card_upto j) + hweight32 (T.tags.getD j 0) = (T.card_upto (j + 1) : Int) ∧
    (T.card_upto (j + 1) : Int) ≤ 32 * N := by
  have h1 := card_upto_le T j
  have h2 := card_upto_le T (j + 1)
  rw [wrap_int_of_range _ (by omega) (by omega), card_upto_succ]
  rw [card_upto_succ] at h2
  refine ⟨by push_cast; rfl, ?_⟩
  push_cast
  omega

theorem card_upto_stop_only (N : Nat) (hN : 1 ≤ N) :
    (⟨1 :: List.replicate (N - 1) 0⟩ : info_tags).card_upto N = 1 := by
  rw [card_upto_eq_sum N _ (by simp; omega)]
  simp [hweight32_one, hweight32_zero]

/-! ## Runs on concrete memory -/

theorem tags_count_logged_two_words :
    tags_count_logged 2 ⟨[5, 3]⟩ = some (4, ⟨[5, 3]⟩, ⟨2, [0, 1], [2, 4]⟩) := by
  simp [tags_count_logged, tags_count_loop_logged, hweight32, wrap_int]
  decide

theorem copy_tags_logged_two_words :
    copy_tags_logged 2 ⟨[5, 8]⟩ ⟨[1, 2]⟩ =
      some (⟨[1, 2]⟩, ⟨[1, 2]⟩, ⟨2, [0, 0, 1, 1], []⟩) := by
  simp [copy_tags_logged, copy_tags_loop_logged]

theorem initialize_tags_logged_short_memory : initialize_tags_logged 2 ⟨[5]⟩ = none := by
  simp [initialize_tags_logged, initialize_tags_loop_logged]

/-! ## Flows that do not resolve their contexts -/

theorem register_flow_file_to_mm_no_inode (status : Int) (mm : context) :
    register_flow_file_to_mm (context.failed status) mm =
      some (status, context.failed status, mm) := by
  cases mm <;> rfl

theorem register_flow_file_to_mm_no_mm (status : Int) (inode : info_tags) :
    register_flow_file_to_mm (context.resolved inode) (context.failed status) =
      some (status, context.resolved inode, context.failed status) := by
  rfl

theorem register_flow_file_to_mm_sealed_mm :
    register_flow_file_to_mm (context.resolved ⟨[36, 0]⟩) (context.resolved ⟨[1, 0]⟩) =
      some (0, context.resolved ⟨[36, 0]⟩, context.resolved ⟨[1, 0]⟩) := by
  simp [register_flow_file_to_mm, blare_stop_propagate]

/-! ## The claims -/

/-- C1: for a tag set `T` of `N ≥ 1` words, `blare_stop_propagate` reads word 0 and answers
true exactly when tag 0 (bit 0 of word 0) is a member of `T`; two tag sets that agree on that
bit get the same answer, whatever their other bits and other words hold. -/
theorem blare_stop_propagate_iff_bit0 (N : Nat) (T : info_tags) (hN : 1 ≤ N)
    (hT : T.valid N) :
    (∃ w0 : Nat, T.tags[0]? = some w0 ∧ blare_stop_propagate T = some (w0.testBit 0, T)) ∧
    ∀ T' : info_tags, T'.valid N → T'.has_tag 0 = T.has_tag 0 →
      (blare_stop_propagate T').map Prod.fst = (blare_stop_propagate T).map Prod.fst := by
  have hl : 0 < T.tags.length := by have := hT.1; omega
  refine ⟨⟨T.tags[0], List.getElem?_eq_getElem hl, ?_⟩, ?_⟩
  · rw [blare_stop_propagate_spec T hl]
    simp [info_tags.has_tag, List.getElem?_eq_getElem hl]
  · intro T' hT' hbit
    have hl' : 0 < T'.tags.length := by have := hT'.1; omega
    rw [blare_stop_propagate_spec T hl, blare_stop_propagate_spec T' hl']
    simp [hbit]

/-- Witness of C1 on the two-word tag set `[5, 8]`, whose tag 0 is set. -/
theorem blare_stop_propagate_iff_bit0_witness :
    (1 ≤ 2 ∧ (⟨[5, 8]⟩ : info_tags).valid 2) ∧
    ∃ w0 : Nat, (⟨[5, 8]⟩ : info_tags).tags[0]? = some w0 ∧
      blare_stop_propagate ⟨[5, 8]⟩ = some (w0.testBit 0, ⟨[5, 8]⟩) :=
  ⟨⟨by decide, by decide⟩,
    (blare_stop_propagate_iff_bit0 2 ⟨[5, 8]⟩ (by decide) (by decide)).1⟩

/-- C2: for a tag set `T` of `N` words, the number of member tags among `0 .. 32 * N - 1` is the
sum of the population counts of the `N` words, and `tags_count` returns that number as an `int`
and leaves `T` as it was; the `int` holds the number itself whenever `32 * N` fits in an `int`. -/
theorem tags_count_eq_card (N : Nat) (T : info_tags) (hT : T.valid N) :
    (List.range (32 * N)).countP T.has_tag = (T.tags.map hweight32).sum ∧
    tags_count N T = some (wrap_int ((List.range (32 * N)).countP T.has_tag : Nat), T) ∧
    (32 * N ≤ 2147483647 →
      tags_count N T = some ((((List.range (32 * N)).countP T.has_tag : Nat) : Int), T)) :=
  ⟨card_upto_eq_sum N T hT.1, tags_count_spec N T (by have := hT.1; omega),
    fun hN => tags_count_exact N T (by have := hT.1; omega) hN⟩

/-- Witness of C2 on the two-word tag set `[5, 4294967295]`, which holds 2 + 32 tags. -/
theorem tags_count_eq_card_witness :
    ((⟨[5, 4294967295]⟩ : info_tags).valid 2 ∧ 32 * 2 ≤ 2147483647) ∧
    tags_count 2 ⟨[5, 4294967295]⟩ = some (34, ⟨[5, 4294967295]⟩) :=
  ⟨⟨by decide, by decide⟩,
    (tags_count_eq_card 2 ⟨[5, 4294967295]⟩ (by decide)).2.2 (by decide)⟩

/-- C3: whatever a tag set `T` of `N` words held, `initialize_tags` leaves every one of its
`N` words zero; on the result `tags_count` returns 0 and (for `N ≥ 1`)
`blare_stop_propagate` returns false. -/
theorem initialize_tags_clears (N : Nat) (T : info_tags) (hT : T.valid N) :
    ∃ T' : info_tags, initialize_tags N T = some T' ∧
      T'.tags = List.replicate N 0 ∧
      (∀ i : Nat, i < N → T'.tags[i]? = some 0) ∧
      tags_count N T' = some (0, T') ∧
      (1 ≤ N → blare_stop_propagate T' = some (false, T')) := by
  refine ⟨⟨List.replicate N 0⟩, initialize_tags_spec N T hT.1, rfl, ?_, ?_, ?_⟩
  · intro i hi
    simp [List.getElem?_replicate, hi]
  · rw [tags_count_spec N _ (by simp), card_upto_replicate_zero]
    simp [wrap_int]
  · intro hN
    rw [blare_stop_propagate_spec _ (by simpa using hN)]
    have hl : 0 < (List.replicate N 0).length := by simpa using hN
    simp [info_tags.has_tag, List.getD_eq_getElem _ _ hl]

/-- Witness of C3 on the two-word tag set `[5, 4294967295]`. -/
theorem initialize_tags_clears_witness :
    (⟨[5, 4294967295]⟩ : info_tags).valid 2 ∧
    ∃ T' : info_tags, initialize_tags 2 ⟨[5, 4294967295]⟩ = some T' ∧
      T'.tags = List.replicate 2 0 ∧
      (∀ i : Nat, i < 2 → T'.tags[i]? = some 0) ∧
      tags_count 2 T' = some (0, T') ∧
      (1 ≤ 2 → blare_stop_propagate T' = some (false, T')) :=
  ⟨by decide, initialize_tags_clears 2 ⟨[5, 4294967295]⟩ (by decide)⟩

/-- C4: for tag sets `dest` and `src` of `N` words, `copy_tags` leaves the destination equal
to `src` word for word, whatever `dest` held, and leaves `src` as it was. -/
theorem copy_tags_replaces (N : Nat) (dest src : info_tags) (hd : dest.valid N)
    (hs : src.valid N) :
    copy_tags N dest src = some (src, src) :=
  copy_tags_spec N dest src hd.1 hs.1

/-- Witness of C4: copying `[1, 2]` over `[5, 4294967295]`. -/
theorem copy_tags_replaces_witness :
    ((⟨[5, 4294967295]⟩ : info_tags).valid 2 ∧ (⟨[1, 2]⟩ : info_tags).valid 2) ∧
    copy_tags 2 ⟨[5, 4294967295]⟩ ⟨[1, 2]⟩ = some (⟨[1, 2]⟩, ⟨[1, 2]⟩) :=
  ⟨⟨by decide, by decide⟩, copy_tags_replaces 2 ⟨[5, 4294967295]⟩ ⟨[1, 2]⟩ (by decide) (by decide)⟩

/-- C5: let `T` be a tag set of `N ≥ 1` words and `T'` be `T` with bit 0 of word 0 set.
Then `T'` is a tag set with its stop bit set, the number of member tags among
`1 .. 32 * N - 1` is the same in `T` and `T'`, and `tags_count T'` is `tags_count T` when
`blare_stop_propagate T` holds and `tags_count T + 1` otherwise: in `int` arithmetic for
every `N`, and without any reduction whenever `32 * N` is within `int`. -/
theorem stop_bit_count (N : Nat) (T T' : info_tags) (hN : 1 ≤ N) (hT : T.valid N)
    (hT' : T' = ⟨T.tags.set 0 (T.tags.getD 0 0 ||| 1)⟩) :
    T'.valid N ∧
    blare_stop_propagate T' = some (true, T') ∧
    (List.range' 1 (32 * N - 1)).countP T'.has_tag =
      (List.range' 1 (32 * N - 1)).countP T.has_tag ∧
    ∃ (c : Int) (s : Bool), tags_count N T = some (c, T) ∧
      blare_stop_propagate T = some (s, T) ∧
      tags_count N T' = some (if s then c else wrap_int (c + 1), T') ∧
      (32 * N ≤ 2147483647 → tags_count N T' = some (if s then c else c + 1, T')) := by
  subst hT'
  have hl : 0 < T.tags.length := by have := hT.1; omega
  have hv := valid_set_stop_bit N T hT
  have hrest : (List.range' 1 (32 * N - 1)).countP
      (⟨T.tags.set 0 (T.tags.getD 0 0 ||| 1)⟩ : info_tags).has_tag =
      (List.range' 1 (32 * N - 1)).countP T.has_tag := by
    apply List.countP_congr
    intro i hi
    rw [has_tag_set_stop_bit T i (List.mem_range'_1.1 hi).1]
  have h0 := has_tag_zero_set_stop_bit T hl
  have hcard : (⟨T.tags.set 0 (T.tags.getD 0 0 ||| 1)⟩ : info_tags).card_upto N =
      T.card_upto N + (if T.has_tag 0 then 0 else 1) := by
    rw [card_upto_split _ N hN, hrest, h0, card_upto_split T N hN]
    cases T.has_tag 0 <;> simp
  have hle := card_upto_le (⟨T.tags.set 0 (T.tags.getD 0 0 ||| 1)⟩ : info_tags) N
  refine ⟨hv, ?_, hrest, wrap_int (T.card_upto N : Int), T.has_tag 0,
    tags_count_spec N T (by have := hT.1; omega), blare_stop_propagate_spec T hl, ?_, ?_⟩
  · rw [blare_stop_propagate_spec _ (by simpa using hl), h0]
  · rw [tags_count_spec N _ (by have := hv.1; omega), hcard]
    cases T.has_tag 0
    · simp [wrap_int_add_left]
    · simp
  · intro hfit
    rw [tags_count_spec N _ (by have := hv.1; omega)]
    rw [hcard] at hle ⊢
    cases hb : T.has_tag 0
    · rw [hb] at hle
      simp only [Bool.false_eq_true, if_false] at hle ⊢
      rw [wrap_int_of_range _ (by omega) (by omega), wrap_int_of_range _ (by omega) (by omega)]
      push_cast; rfl
    · simp

/-- Witness of C5 on `[4, 3]`, whose stop bit is clear: the count goes from 3 to 4. -/
theorem stop_bit_count_witness :
    (1 ≤ 2 ∧ (⟨[4, 3]⟩ : info_tags).valid 2 ∧
      (⟨[5, 3]⟩ : info_tags) =
        ⟨([4, 3] : List Nat).set 0 (([4, 3] : List Nat).getD 0 0 ||| 1)⟩ ∧
      32 * 2 ≤ 2147483647) ∧
    ∃ (c : Int) (s : Bool), tags_count 2 ⟨[4, 3]⟩ = some (c, ⟨[4, 3]⟩) ∧
      blare_stop_propagate ⟨[4, 3]⟩ = some (s, ⟨[4, 3]⟩) ∧
      tags_count 2 ⟨[5, 3]⟩ = some (if s then c else wrap_int (c + 1), ⟨[5, 3]⟩) ∧
      (32 * 2 ≤ 2147483647 → tags_count 2 ⟨[5, 3]⟩ = some (if s then c else c + 1, ⟨[5, 3]⟩)) :=
  ⟨⟨by decide, by decide, by decide, by decide⟩,
    (stop_bit_count 2 ⟨[4, 3]⟩ ⟨[5, 3]⟩ (by decide) (by decide) (by decide)).2.2.2⟩

/-- C6: for tag sets `A` and `B` of `N` words and `U` their word-wise bitwise OR, `U` is a tag
set of `N` words whose members are the tags of `A` or of `B`, the OR is commutative and
idempotent, and (with `32 * N` within `int`) `tags_count U` is at least the larger of
`tags_count A` and `tags_count B`. -/
theorem union_count_ge_max (N : Nat) (A B U : info_tags) (hA : A.valid N) (hB : B.valid N)
    (hU : U = ⟨List.zipWith (· ||| ·) A.tags B.tags⟩) :
    U.valid N ∧
    (∀ i : Nat, U.has_tag i = (A.has_tag i || B.has_tag i)) ∧
    List.zipWith (· ||| ·) A.tags B.tags = List.zipWith (· ||| ·) B.tags A.tags ∧
    List.zipWith (· ||| ·) A.tags A.tags = A.tags ∧
    (32 * N ≤ 2147483647 →
      ∃ a b u : Int, tags_count N A = some (a, A) ∧ tags_count N B = some (b, B) ∧
        tags_count N U = some (u, U) ∧ max a b ≤ u) := by
  subst hU
  have hlen : A.tags.length = B.tags.length := by rw [hA.1, hB.1]
  have hv := valid_union N A B hA hB
  have hmem := has_tag_union A B hlen
  refine ⟨hv, hmem, zipWith_lor_comm _ _, zipWith_lor_self _, fun hfit => ⟨_, _, _,
    tags_count_exact N A (by have := hA.1; omega) hfit,
    tags_count_exact N B (by have := hB.1; omega) hfit,
    tags_count_exact N _ (by have := hv.1; omega) hfit, ?_⟩⟩
  have h1 := card_upto_mono A ⟨List.zipWith (· ||| ·) A.tags B.tags⟩ N
    (fun i hi => by rw [hmem i, hi]; rfl)
  have h2 := card_upto_mono B ⟨List.zipWith (· ||| ·) A.tags B.tags⟩ N
    (fun i hi => by rw [hmem i, hi]; simp)
  exact max_le (by exact_mod_cast h1) (by exact_mod_cast h2)

/-- Witness of C6 on `A = [5, 0]` and `B = [3, 8]`, whose OR is `[7, 8]`. -/
theorem union_count_ge_max_witness :
    ((⟨[5, 0]⟩ : info_tags).valid 2 ∧ (⟨[3, 8]⟩ : info_tags).valid 2 ∧
      (⟨[7, 8]⟩ : info_tags) = ⟨List.zipWith (· ||| ·) [5, 0] [3, 8]⟩ ∧
      32 * 2 ≤ 2147483647) ∧
    ∃ a b u : Int, tags_count 2 ⟨[5, 0]⟩ = some (a, ⟨[5, 0]⟩) ∧
      tags_count 2 ⟨[3, 8]⟩ = some (b, ⟨[3, 8]⟩) ∧
      tags_count 2 ⟨[7, 8]⟩ = some (u, ⟨[7, 8]⟩) ∧ max a b ≤ u :=
  ⟨⟨by decide, by decide, by decide, by decide⟩,
    (union_count_ge_max 2 ⟨[5, 0]⟩ ⟨[3, 8]⟩ ⟨[7, 8]⟩ (by decide) (by decide)
      (by decide)).2.2.2.2 (by decide)⟩

/-- C7: for a tag set `T` of `N` words (with `32 * N` within `int`), `tags_count T` is
positive exactly when some word of `T` is non-zero, and is 0 exactly when `T` is the all-zero
tag set; `blare_is_traced`, true when the count is positive, is therefore true exactly when
some word of `T` is non-zero. -/
theorem traced_iff_nonempty (N : Nat) (T : info_tags) (hfit : 32 * N ≤ 2147483647)
    (hT : T.valid N) :
    (∃ c : Int, tags_count N T = some (c, T) ∧
      (0 < c ↔ ∃ w ∈ T.tags, w ≠ 0) ∧
      (c = 0 ↔ T.tags = List.replicate N 0)) ∧
    blare_is_traced N T = some (decide (∃ w ∈ T.tags, w ≠ 0), T) := by
  have hc := tags_count_exact N T (by have := hT.1; omega) hfit
  have hz := card_upto_eq_zero N T hT
  have hpos : (0 < (T.card_upto N : Int)) ↔ ∃ w ∈ T.tags, w ≠ 0 := by
    constructor
    · intro h
      by_contra hne
      push_neg at hne
      have := hz.2 hne
      omega
    · rintro ⟨w, hw, hw0⟩
      by_contra hn
      have h0 : T.card_upto N = 0 := by omega
      exact hw0 (hz.1 h0 w hw)
  refine ⟨⟨_, hc, hpos, ?_⟩, ?_⟩
  · rw [List.eq_replicate_iff]
    constructor
    · intro h
      exact ⟨hT.1, hz.1 (by exact_mod_cast h)⟩
    · intro h
      exact_mod_cast hz.2 h.2
  · unfold blare_is_traced
    rw [hc]
    simp only [Option.some.injEq, Prod.mk.injEq, and_true]
    exact decide_eq_decide.2 hpos

/-- Witness of C7 on the tag set `[0, 8]`, which holds tag 35 alone. -/
theorem traced_iff_nonempty_witness :
    (32 * 2 ≤ 2147483647 ∧ (⟨[0, 8]⟩ : info_tags).valid 2) ∧
    blare_is_traced 2 ⟨[0, 8]⟩ = some (true, ⟨[0, 8]⟩) :=
  ⟨⟨by decide, by decide⟩, (traced_iff_nonempty 2 ⟨[0, 8]⟩ (by decide) (by decide)).2⟩

/-- C10: for tag sets `dest` and `src` of `N` words, `initialize_tags` and `copy_tags` leave
the destination a tag set of `N` words and `copy_tags` leaves `src` as it was; `tags_count` and
`blare_stop_propagate` leave their argument as it was. On any storage of at least `N` words the
two writers store into the words at indices `0 .. N-1` and into no other: the number of words
is kept and every word at an index from `N` on keeps its value. -/
theorem width_invariant (N : Nat) (dest src : info_tags) (hd : dest.valid N)
    (hs : src.valid N) :
    (∃ d : info_tags, initialize_tags N dest = some d ∧ d.valid N) ∧
    (∃ d : info_tags, copy_tags N dest src = some (d, src) ∧ d.valid N) ∧
    (∃ c : Int, tags_count N dest = some (c, dest)) ∧
    (1 ≤ N → ∃ b : Bool, blare_stop_propagate dest = some (b, dest)) ∧
    (∀ mem : info_tags, N ≤ mem.tags.length →
      ∃ out : info_tags, initialize_tags N mem = some out ∧
        out.tags.length = mem.tags.length ∧
        ∀ j : Nat, out.tags[j]? = if j < N then some 0 else mem.tags[j]?) ∧
    (∀ mem : info_tags, N ≤ mem.tags.length →
      ∃ out : info_tags, copy_tags N mem src = some (out, src) ∧
        out.tags.length = mem.tags.length ∧
        ∀ j : Nat, out.tags[j]? = if j < N then src.tags[j]? else mem.tags[j]?) := by
  refine ⟨⟨_, initialize_tags_spec N dest hd.1, ?_⟩,
    ⟨src, copy_tags_spec N dest src hd.1 hs.1, hs⟩,
    ⟨_, tags_count_spec N dest (by have := hd.1; omega)⟩, ?_, ?_, ?_⟩
  · refine ⟨by simp, ?_⟩
    intro w hw
    rw [(List.mem_replicate.1 hw).2]
    decide
  · intro hN
    exact ⟨_, blare_stop_propagate_spec dest (by have := hd.1; omega)⟩
  · intro mem hmem
    obtain ⟨out, h1, h2, h3⟩ :=
      initialize_tags_loop_spec N N 0 mem (by omega) (by omega) hmem
    refine ⟨out, h1, h2, fun j => ?_⟩
    rw [h3 j]
    simp
  · intro mem hmem
    obtain ⟨out, h1, h2, h3⟩ :=
      copy_tags_loop_spec N src (by have := hs.1; omega) N 0 mem (by omega) (by omega) hmem
    refine ⟨out, h1, h2, fun j => ?_⟩
    rw [h3 j]
    simp

/-- Witness of C10 on `dest = [5, 4294967295]` and `src = [1, 2]`. -/
theorem width_invariant_witness :
    ((⟨[5, 4294967295]⟩ : info_tags).valid 2 ∧ (⟨[1, 2]⟩ : info_tags).valid 2) ∧
    (∃ d : info_tags, initialize_tags 2 ⟨[5, 4294967295]⟩ = some d ∧ d.valid 2) ∧
    (∃ d : info_tags, copy_tags 2 ⟨[5, 4294967295]⟩ ⟨[1, 2]⟩ = some (d, ⟨[1, 2]⟩) ∧
      d.valid 2) :=
  ⟨⟨by decide, by decide⟩,
    (width_invariant 2 ⟨[5, 4294967295]⟩ ⟨[1, 2]⟩ (by decide) (by decide)).1,
    (width_invariant 2 ⟨[5, 4294967295]⟩ ⟨[1, 2]⟩ (by decide) (by decide)).2.1⟩

/-- C11: for `N ≥ 1` and tag sets `dest` and `src` of `N` words, `tags_count`,
`initialize_tags`, `copy_tags` and `blare_stop_propagate` all return; each of the three loops
executes its body exactly `N` times, on the indices `0, 1, .., N-1` in turn, and
`blare_stop_propagate` reads word 0 alone, so every word index read or written is below `N`.
The runs with their ghost record give the results of the functions themselves. -/
theorem total_no_failure (N : Nat) (dest src : info_tags) (hN : 1 ≤ N) (hd : dest.valid N)
    (hs : src.valid N) :
    (∃ (c : Int) (log : run_log), tags_count_logged N dest = some (c, dest, log) ∧
      tags_count N dest = some (c, dest) ∧
      log.iterations = N ∧ log.indices = List.range N ∧ ∀ j ∈ log.indices, j < N) ∧
    (∃ (out : info_tags) (log : run_log), initialize_tags_logged N dest = some (out, log) ∧
      initialize_tags N dest = some out ∧
      log.iterations = N ∧ log.indices = List.range N ∧ ∀ j ∈ log.indices, j < N) ∧
    (∃ (out : info_tags) (log : run_log),
      copy_tags_logged N dest src = some (out, src, log) ∧
      copy_tags N dest src = some (out, src) ∧
      log.iterations = N ∧ log.indices.length = 2 * N ∧ ∀ j ∈ log.indices, j < N) ∧
    (∃ (b : Bool) (log : run_log), blare_stop_propagate_logged dest = some (b, dest, log) ∧
      blare_stop_propagate dest = some (b, dest) ∧
      log.iterations = 0 ∧ log.indices = [0] ∧ ∀ j ∈ log.indices, j < N) := by
  have hdl : N ≤ dest.tags.length := by have := hd.1; omega
  have hsl : N ≤ src.tags.length := by have := hs.1; omega
  refine ⟨?_, ?_, ?_, ?_⟩
  · refine ⟨_, _, tags_count_logged_spec N dest hdl, tags_count_spec N dest hdl, rfl, rfl, ?_⟩
    intro j hj
    exact List.mem_range.1 hj
  · obtain ⟨out, h1⟩ :=
      initialize_tags_loop_logged_spec N N 0 dest ⟨0, [], []⟩ (by omega) (by omega) hdl
    have h2 := initialize_tags_loop_logged_erase N N 0 dest ⟨0, [], []⟩ (by omega)
    rw [h1] at h2
    refine ⟨out, _, h1, h2.symm, by simp, by simp [List.range_eq_range'], ?_⟩
    intro j hj
    simp only [List.nil_append, List.mem_range'_1] at hj
    omega
  · obtain ⟨out, idx, h1, h2, h3⟩ :=
      copy_tags_loop_logged_spec N src hsl N 0 dest ⟨0, [], []⟩ (by omega) (by omega) hdl
    have h4 := copy_tags_loop_logged_erase N src N 0 dest ⟨0, [], []⟩ (by omega)
    rw [h1] at h4
    refine ⟨out, _, h1, h4.symm, by simp, by simpa using h2, ?_⟩
    intro j hj
    exact (h3 j (by simpa using hj)).2
  · have hl : 0 < dest.tags.length := by omega
    have h1 := blare_stop_propagate_spec dest hl
    refine ⟨dest.has_tag 0, ⟨0, [0], []⟩, ?_, h1, rfl, rfl, ?_⟩
    · unfold blare_stop_propagate at h1
      unfold blare_stop_propagate_logged
      rw [List.getElem?_eq_getElem hl] at h1 ⊢
      simp only [Option.some.injEq, Prod.mk.injEq, and_true] at h1 ⊢
      exact h1
    · intro j hj
      simp only [List.mem_singleton] at hj
      omega

/-- Witness of C11 on `dest = [5, 4294967295]` and `src = [1, 2]`. -/
theorem total_no_failure_witness :
    (1 ≤ 2 ∧ (⟨[5, 4294967295]⟩ : info_tags).valid 2 ∧ (⟨[1, 2]⟩ : info_tags).valid 2) ∧
    ∃ (c : Int) (log : run_log),
      tags_count_logged 2 ⟨[5, 4294967295]⟩ = some (c, ⟨[5, 4294967295]⟩, log) ∧
      tags_count 2 ⟨[5, 4294967295]⟩ = some (c, ⟨[5, 4294967295]⟩) ∧
      log.iterations = 2 ∧ log.indices = List.range 2 ∧ ∀ j ∈ log.indices, j < 2 :=
  ⟨⟨by decide, by decide, by decide⟩,
    (total_no_failure 2 ⟨[5, 4294967295]⟩ ⟨[1, 2]⟩ (by decide) (by decide) (by decide)).1⟩

/-- C12: for a tag set `T` of `N ≥ 1` words on which `blare_stop_propagate` answers true, at
least one tag among `0 .. 32 * N - 1` is a member, the stop bit being one of them, and (with
`32 * N` within `int`) `tags_count T` is at least 1; the tag set that holds the stop bit and
nothing else is sealed and has count exactly 1. -/
theorem sealed_count_pos (N : Nat) (T : info_tags) (hN : 1 ≤ N) (hT : T.valid N)
    (hseal : blare_stop_propagate T = some (true, T)) :
    T.has_tag 0 = true ∧
    1 ≤ (List.range (32 * N)).countP T.has_tag ∧
    (32 * N ≤ 2147483647 → ∃ c : Int, tags_count N T = some (c, T) ∧ 1 ≤ c) ∧
    blare_stop_propagate ⟨1 :: List.replicate (N - 1) 0⟩ =
      some (true, ⟨1 :: List.replicate (N - 1) 0⟩) ∧
    tags_count N ⟨1 :: List.replicate (N - 1) 0⟩ =
      some (1, ⟨1 :: List.replicate (N - 1) 0⟩) := by
  have hl : 0 < T.tags.length := by have := hT.1; omega
  have h0 : T.has_tag 0 = true := by
    have h := blare_stop_propagate_spec T hl
    rw [hseal] at h
    simp only [Option.some.injEq, Prod.mk.injEq, and_true] at h
    exact h.symm
  have hcard : 1 ≤ T.card_upto N := by
    rw [card_upto_split T N hN, h0]
    simp
  refine ⟨h0, hcard, ?_, ?_, ?_⟩
  · intro hfit
    exact ⟨_, tags_count_exact N T (by have := hT.1; omega) hfit, by exact_mod_cast hcard⟩
  · rw [blare_stop_propagate_spec _ (by simp)]
    simp [info_tags.has_tag]
  · rw [tags_count_spec N _ (by simp; omega), card_upto_stop_only N hN]
    simp [wrap_int]

/-- Witness of C12 on `[1, 0]`, which holds the stop bit and nothing else. -/
theorem sealed_count_pos_witness :
    (1 ≤ 2 ∧ (⟨[1, 0]⟩ : info_tags).valid 2 ∧
      blare_stop_propagate ⟨[1, 0]⟩ = some (true, ⟨[1, 0]⟩) ∧ 32 * 2 ≤ 2147483647) ∧
    ∃ c : Int, tags_count 2 ⟨[1, 0]⟩ = some (c, ⟨[1, 0]⟩) ∧ 1 ≤ c :=
  ⟨⟨by decide, by decide, blare_stop_propagate_spec _ (by decide), by decide⟩,
    (sealed_count_pos 2 ⟨[1, 0]⟩ (by decide) (by decide)
      (blare_stop_propagate_spec _ (by decide))).2.2.1 (by decide)⟩

/-- C13: for tag sets `dest` and `src` of `N ≥ 1` words, whatever `dest` held, the
destination left by `copy_tags` gets from `blare_stop_propagate` the answer `src` gets and from
`tags_count` the count `src` gets, and has exactly the tags of `src`, tag 0 included. -/
theorem copy_tags_carries_stop_and_count (N : Nat) (dest src : info_tags) (hN : 1 ≤ N)
    (hd : dest.valid N) (hs : src.valid N) :
    ∃ (d : info_tags) (b : Bool) (c : Int), copy_tags N dest src = some (d, src) ∧
      blare_stop_propagate src = some (b, src) ∧ blare_stop_propagate d = some (b, d) ∧
      tags_count N src = some (c, src) ∧ tags_count N d = some (c, d) ∧
      b = src.has_tag 0 ∧ ∀ i : Nat, d.has_tag i = src.has_tag i := by
  have hl : 0 < src.tags.length := by have := hs.1; omega
  exact ⟨src, src.has_tag 0, _, copy_tags_spec N dest src hd.1 hs.1,
    blare_stop_propagate_spec src hl, blare_stop_propagate_spec src hl,
    tags_count_spec N src (by have := hs.1; omega),
    tags_count_spec N src (by have := hs.1; omega), rfl, fun _ => rfl⟩

/-- Witness of C13: copying the sealed `[1, 2]` over `[4, 4294967295]`. -/
theorem copy_tags_carries_stop_and_count_witness :
    (1 ≤ 2 ∧ (⟨[4, 4294967295]⟩ : info_tags).valid 2 ∧ (⟨[1, 2]⟩ : info_tags).valid 2) ∧
    ∃ (d : info_tags) (b : Bool) (c : Int),
      copy_tags 2 ⟨[4, 4294967295]⟩ ⟨[1, 2]⟩ = some (d, ⟨[1, 2]⟩) ∧
      blare_stop_propagate ⟨[1, 2]⟩ = some (b, ⟨[1, 2]⟩) ∧
      blare_stop_propagate d = some (b, d) ∧
      tags_count 2 ⟨[1, 2]⟩ = some (c, ⟨[1, 2]⟩) ∧ tags_count 2 d = some (c, d) ∧
      b = (⟨[1, 2]⟩ : info_tags).has_tag 0 ∧
      ∀ i : Nat, d.has_tag i = (⟨[1, 2]⟩ : info_tags).has_tag i :=
  ⟨⟨by decide, by decide, by decide⟩,
    copy_tags_carries_stop_and_count 2 ⟨[4, 4294967295]⟩ ⟨[1, 2]⟩ (by decide) (by decide)
      (by decide)⟩

/-- C14: for a tag set `T` of `N` words, the number of member tags among `0 .. 32 * N - 1`
is at most `32 * N`, and is `32 * N` exactly when every word is `0xFFFFFFFF`. Whenever
`32 * N ≤ 2^31 - 1`, `tags_count T` is that number, so it lies in `0 .. 32 * N` and equals
`32 * N` exactly when every word is `0xFFFFFFFF`, and each of the `N` sums
`count + hweight32(...)` formed during the run lies in `0 .. 2^31 - 1`: its conversion to
`int` changes nothing. -/
theorem count_bounds (N : Nat) (T : info_tags) (hT : T.valid N) :
    (List.range (32 * N)).countP T.has_tag ≤ 32 * N ∧
    ((List.range (32 * N)).countP T.has_tag = 32 * N ↔ ∀ w ∈ T.tags, w = 4294967295) ∧
    (32 * N ≤ 2147483647 → ∃ (c : Int) (log : run_log),
      tags_count N T = some (c, T) ∧ tags_count_logged N T = some (c, T, log) ∧
      0 ≤ c ∧ c ≤ 32 * N ∧ (c = 32 * N ↔ ∀ w ∈ T.tags, w = 4294967295) ∧
      log.sums.length = N ∧
      ∀ s ∈ log.sums, 0 ≤ s ∧ s ≤ 2147483647 ∧ wrap_int s = s) := by
  have hl : N ≤ T.tags.length := by have := hT.1; omega
  have hle := card_upto_le T N
  have hfull := card_upto_eq_full N T hT
  refine ⟨hle, hfull, fun hfit => ?_⟩
  have hc := tags_count_exact N T hl hfit
  have hlog := tags_count_logged_spec N T hl
  rw [wrap_int_of_range _ (by omega) (by omega)] at hlog
  refine ⟨_, _, hc, hlog, by omega, by exact_mod_cast hle, ?_, by simp, ?_⟩
  · rw [← hfull]
    constructor
    · intro h; exact_mod_cast h
    · intro h; exact_mod_cast h
  · intro s hs
    simp only [List.mem_map, List.mem_range] at hs
    obtain ⟨j, hj, rfl⟩ := hs
    obtain ⟨h1, h2⟩ := running_sum_in_range N T hfit j hj
    rw [h1]
    have h3 : (0 : Int) ≤ (T.card_upto (j + 1) : Int) := by omega
    exact ⟨h3, by omega, wrap_int_of_range _ (by omega) (by omega)⟩

/-- Witness of C14 on the full two-word tag set `[4294967295, 4294967295]`. -/
theorem count_bounds_witness :
    ((⟨[4294967295, 4294967295]⟩ : info_tags).valid 2 ∧ 32 * 2 ≤ 2147483647) ∧
    ∃ (c : Int) (log : run_log),
      tags_count 2 ⟨[4294967295, 4294967295]⟩ = some (c, ⟨[4294967295, 4294967295]⟩) ∧
      tags_count_logged 2 ⟨[4294967295, 4294967295]⟩ =
        some (c, ⟨[4294967295, 4294967295]⟩, log) ∧
      0 ≤ c ∧ c ≤ 32 * 2 ∧
      (c = 32 * 2 ↔ ∀ w ∈ (⟨[4294967295, 4294967295]⟩ : info_tags).tags, w = 4294967295) ∧
      log.sums.length = 2 ∧
      ∀ s ∈ log.sums, 0 ≤ s ∧ s ≤ 2147483647 ∧ wrap_int s = s :=
  ⟨⟨by decide, by decide⟩,
    (count_bounds 2 ⟨[4294967295, 4294967295]⟩ (by decide)).2.2 (by decide)⟩

end Blare
